import Mathlib

/-!
Verification development for the RocksDict typed key-value store front-end.

The repository's Python layer (src/python/rocksdict/__init__.py,
src/rocksdict/__init__.py) is embedded directly.  The Rust core (key/value
codecs, the storage engine, snapshots, write batches, wide columns, the
iterator primitives) is not part of the source tree here, so those parts are
modelled from the specification (spec.md sections 4.1-4.8, 6, 7): each such
definition carries a doc comment starting with "Modelled from the spec:".

Bytes are modelled as lists of naturals; the engine orders byte strings
lexicographically, which is the order provided by Mathlib's
`LinearOrder (List Nat)` instance (`List.Lex (· < ·)`).
-/

namespace RocksDict

/-- A byte string, as handled by the storage engine. -/
abbrev Bytes := List Nat

/-! ## Big-endian byte encodings of naturals -/

/-- Big-endian base-256 digits of `n`, padded/truncated to exactly `k` digits
(the value represented is `n % 256 ^ k`). -/
def beDigits : Nat → Nat → List Nat
  | 0, _ => []
  | k + 1, n => n / 256 ^ k :: beDigits k (n % 256 ^ k)

/-- Recover a natural from big-endian base-256 digits. -/
def fromBE (ds : Bytes) : Nat := ds.foldl (fun acc d => acc * 256 + d) 0

/-- Fuel-driven count of the base-256 digits of `n` (fuel-first so that the
definition is structural and evaluates in the kernel). -/
def numBytesAux : Nat → Nat → Nat
  | 0, _ => 1
  | fuel + 1, n => if n < 256 then 1 else numBytesAux fuel (n / 256) + 1

/-- Number of bytes in the minimal big-endian encoding of `n` (at least 1,
matching an arbitrary-precision integer encoder that emits one byte for 0). -/
def numBytes (n : Nat) : Nat := numBytesAux n n

theorem numBytesAux_bound : ∀ fuel n, n ≤ fuel → n < 256 ^ numBytesAux fuel n := by
  intro fuel
  induction fuel with
  | zero =>
    intro n hn
    interval_cases n
    simp [numBytesAux]
  | succ fuel ih =>
    intro n hn
    by_cases h : n < 256
    · simp only [numBytesAux, h, if_true, pow_one]
    · have h256 : 256 ≤ n := le_of_not_lt h
      have hdivlt : n / 256 < n := Nat.div_lt_self (by omega) (by omega)
      have hdivfuel : n / 256 ≤ fuel := by omega
      have hIH := ih (n / 256) hdivfuel
      have hmod : n % 256 < 256 := Nat.mod_lt _ (by omega)
      have hdm : 256 * (n / 256) + n % 256 = n := Nat.div_add_mod n 256
      have hstep : n < 256 * (n / 256 + 1) := by omega
      have hmul : 256 * (n / 256 + 1) ≤ 256 * 256 ^ numBytesAux fuel (n / 256) := by
        have : n / 256 + 1 ≤ 256 ^ numBytesAux fuel (n / 256) := hIH
        exact Nat.mul_le_mul_left _ this
      have : n < 256 * 256 ^ numBytesAux fuel (n / 256) := lt_of_lt_of_le hstep hmul
      simpa [numBytesAux, h, pow_succ, Nat.mul_comm] using this

theorem numBytes_bound (n : Nat) : n < 256 ^ numBytes n :=
  numBytesAux_bound n n le_rfl

theorem fromBE_foldl : ∀ (k n acc : Nat), n < 256 ^ k →
    (beDigits k n).foldl (fun a d => a * 256 + d) acc = acc * 256 ^ k + n := by
  intro k
  induction k with
  | zero =>
    intro n acc hn
    have : n = 0 := by simpa using hn
    simp [beDigits, this]
  | succ k ih =>
    intro n acc hn
    have hmod : n % 256 ^ k < 256 ^ k := Nat.mod_lt _ (Nat.pos_pow_of_pos k (by omega))
    have hrec := ih (n % 256 ^ k) (acc * 256 + n / 256 ^ k) hmod
    have hdm : 256 ^ k * (n / 256 ^ k) + n % 256 ^ k = n := Nat.div_add_mod n (256 ^ k)
    calc (beDigits (k + 1) n).foldl (fun a d => a * 256 + d) acc
        = (beDigits k (n % 256 ^ k)).foldl (fun a d => a * 256 + d)
            (acc * 256 + n / 256 ^ k) := by
          simp [beDigits, List.foldl_cons]
      _ = (acc * 256 + n / 256 ^ k) * 256 ^ k + n % 256 ^ k := hrec
      _ = acc * 256 ^ (k + 1) + (256 ^ k * (n / 256 ^ k) + n % 256 ^ k) := by ring
      _ = acc * 256 ^ (k + 1) + n := by rw [hdm]

theorem fromBE_beDigits {k n : Nat} (hn : n < 256 ^ k) :
    fromBE (beDigits k n) = n := by
  simpa [fromBE] using fromBE_foldl k n 0 hn

theorem beDigits_length : ∀ (k n : Nat), (beDigits k n).length = k := by
  intro k
  induction k with
  | zero => intro n; simp [beDigits]
  | succ k ih => intro n; simp [beDigits, ih]

/-- Fixed-width big-endian encodings compare lexicographically exactly like the
encoded naturals. -/
theorem beDigits_lt : ∀ (k a b : Nat), a < b → b < 256 ^ k →
    beDigits k a < beDigits k b := by
  intro k
  induction k with
  | zero =>
    intro a b hab hb
    simp only [pow_zero, Nat.lt_one_iff] at hb
    omega
  | succ k ih =>
    intro a b hab hb
    have hda : a / 256 ^ k ≤ b / 256 ^ k :=
      Nat.div_le_div_right (le_of_lt hab)
    rcases lt_or_eq_of_le hda with hlt | heq
    · exact List.Lex.rel hlt
    · have hpow : 0 < 256 ^ k := Nat.pos_pow_of_pos k (by omega)
      have hdma : 256 ^ k * (b / 256 ^ k) + a % 256 ^ k = a := by
        rw [← heq]; exact Nat.div_add_mod a (256 ^ k)
      have hdmb : 256 ^ k * (b / 256 ^ k) + b % 256 ^ k = b := Nat.div_add_mod b (256 ^ k)
      have hmodlt : a % 256 ^ k < b % 256 ^ k := by omega
      have hmodbound : b % 256 ^ k < 256 ^ k := Nat.mod_lt _ hpow
      have htail := ih (a % 256 ^ k) (b % 256 ^ k) hmodlt hmodbound
      simpa [beDigits, heq] using List.Lex.cons htail

/-! ## The storage engine's seek/iteration boundary

Modelled from the spec (section 6 boundary, section 4.5 cursor semantics):
the engine keeps encoded keys in ascending lexicographic byte order;
`seek(k)` positions the cursor at the smallest stored key that is
lexicographically at least `k` and forward iteration yields the remaining
keys in order; `seek_for_prev(k)` positions at the largest stored key
at most `k` and backward iteration yields the earlier keys in reverse.
Values ride along unchanged, so the model tracks keys only. -/

/-- Modelled from the spec: forward iteration after `seek e0` over the
engine's lexicographically sorted key list `st`. -/
def seekFwd (st : List Bytes) (e0 : Bytes) : List Bytes :=
  st.dropWhile (fun e => decide (e < e0))

/-- Modelled from the spec: backward iteration after `seek_for_prev e0` over
the engine's lexicographically sorted key list `st`. -/
def seekBwd (st : List Bytes) (e0 : Bytes) : List Bytes :=
  (st.takeWhile (fun e => decide (e ≤ e0))).reverse

theorem dropWhileCongr {α : Type} (p q : α → Bool) :
    ∀ l : List α, (∀ a ∈ l, p a = q a) → l.dropWhile p = l.dropWhile q := by
  intro l
  induction l with
  | nil => intro _; rfl
  | cons x xs ih =>
    intro h
    have hx : p x = q x := h x (List.mem_cons_self _ _)
    have htail := ih fun a ha => h a (List.mem_cons_of_mem _ ha)
    by_cases hq : q x = true
    · simp [List.dropWhile_cons, hx, hq, htail]
    · simp [List.dropWhile_cons, hx, hq]

theorem takeWhileCongr {α : Type} (p q : α → Bool) :
    ∀ l : List α, (∀ a ∈ l, p a = q a) → l.takeWhile p = l.takeWhile q := by
  intro l
  induction l with
  | nil => intro _; rfl
  | cons x xs ih =>
    intro h
    have hx : p x = q x := h x (List.mem_cons_self _ _)
    have htail := ih fun a ha => h a (List.mem_cons_of_mem _ ha)
    by_cases hq : q x = true
    · simp [List.takeWhile_cons, hx, hq, htail]
    · simp [List.takeWhile_cons, hx, hq]

theorem dropWhile_lt_of_sorted {K : Type} [LinearOrder K] (k : K) :
    ∀ S : List K, S.Pairwise (· < ·) →
      S.dropWhile (fun a => decide (a < k)) = S.filter (fun a => decide (k ≤ a)) := by
  intro S
  induction S with
  | nil => intro _; rfl
  | cons x xs ih =>
    intro hs
    have hxlt : ∀ y ∈ xs, x < y := fun y hy => List.rel_of_pairwise_cons hs hy
    by_cases hx : x < k
    · have hnot : ¬ k ≤ x := not_le.mpr hx
      simp [List.dropWhile_cons, List.filter_cons, hx, hnot,
        ih (List.Pairwise.tail hs)]
    · have hle : k ≤ x := not_lt.mp hx
      have hrest : xs.filter (fun a => decide (k ≤ a)) = xs := by
        apply List.filter_eq_self.mpr
        intro y hy
        exact decide_eq_true (le_of_lt (lt_of_le_of_lt hle (hxlt y hy)))
      simp [List.dropWhile_cons, List.filter_cons, hx, hle, hrest]

theorem takeWhile_le_of_sorted {K : Type} [LinearOrder K] (k : K) :
    ∀ S : List K, S.Pairwise (· < ·) →
      S.takeWhile (fun a => decide (a ≤ k)) = S.filter (fun a => decide (a ≤ k)) := by
  intro S
  induction S with
  | nil => intro _; rfl
  | cons x xs ih =>
    intro hs
    have hxlt : ∀ y ∈ xs, x < y := fun y hy => List.rel_of_pairwise_cons hs hy
    by_cases hx : x ≤ k
    · simp [List.takeWhile_cons, List.filter_cons, hx, ih (List.Pairwise.tail hs)]
    · have hrest : xs.filter (fun a => decide (a ≤ k)) = [] := by
        apply List.filter_eq_nil_iff.mpr
        intro y hy
        have : k < y := lt_trans (not_le.mp hx) (hxlt y hy)
        simp [not_le.mpr this]
      simp [List.takeWhile_cons, List.filter_cons, hx, hrest]

/-- Generic exact-seek theorem: if the typed store `S` is sorted and the
encoding preserves and reflects order against the probe key `k`, then forward
iteration from `k` yields exactly the encodings of the stored keys `≥ k` in
ascending order, and backward iteration from `k` yields exactly the stored
keys `≤ k` in descending order. -/
theorem seek_exact_generic {K : Type} [LinearOrder K] (enc : K → Bytes)
    (S : List K) (k : K) (hs : S.Pairwise (· < ·))
    (hlt : ∀ a ∈ S, (enc a < enc k ↔ a < k))
    (hle : ∀ a ∈ S, (enc a ≤ enc k ↔ a ≤ k)) :
    seekFwd (S.map enc) (enc k) = (S.filter (fun a => decide (k ≤ a))).map enc ∧
    seekBwd (S.map enc) (enc k) = ((S.filter (fun a => decide (a ≤ k))).map enc).reverse := by
  constructor
  · unfold seekFwd
    rw [List.dropWhile_map]
    have hcongr : S.dropWhile ((fun e => decide (e < enc k)) ∘ enc)
        = S.dropWhile (fun a => decide (a < k)) := by
      apply dropWhileCongr
      intro a ha
      simp only [Function.comp_apply]
      exact decide_eq_decide.mpr (hlt a ha)
    rw [hcongr, dropWhile_lt_of_sorted k S hs]
  · unfold seekBwd
    rw [List.takeWhile_map]
    have hcongr : S.takeWhile ((fun e => decide (e ≤ enc k)) ∘ enc)
        = S.takeWhile (fun a => decide (a ≤ k)) := by
      apply takeWhileCongr
      intro a ha
      simp only [Function.comp_apply]
      exact decide_eq_decide.mpr (hle a ha)
    rw [hcongr, takeWhile_le_of_sorted k S hs]

/-- Order-iff facts against a fixed probe, derived from a strictly monotone
encoding. -/
theorem strictMono_seek_iffs {K : Type} [LinearOrder K] {enc : K → Bytes}
    (hmono : StrictMono enc) (S : List K) (k : K) :
    (∀ a ∈ S, (enc a < enc k ↔ a < k)) ∧ (∀ a ∈ S, (enc a ≤ enc k ↔ a ≤ k)) :=
  ⟨fun _ _ => hmono.lt_iff_lt, fun _ _ => hmono.le_iff_le⟩

/-! ## KeyCodec (spec section 4.1)

Modelled from the spec: the Rust codec is not in the source tree, only its
callers and tests are.  Each key type gets a distinct tag byte; the payload
follows the per-type rules of section 4.1. -/

/-- Modelled from the spec: BigInt keys are "tag byte + a variable-length
magnitude/length encoding", i.e. the minimal big-endian base-256 magnitude.
The spec leaves the sign representation unspecified and the repository's
tests exercise nonnegative keys only, so the model covers the nonnegative
magnitudes. -/
def intEncode (n : Nat) : Bytes := 0 :: beDigits (numBytes n) n

/-- Modelled from the spec: Bytes keys are "tag byte + raw bytes". -/
def bytesEncode (b : Bytes) : Bytes := 1 :: b

/-- Modelled from the spec: Utf8String keys are "tag byte + raw bytes" of the
UTF-8 form; the spec compares strings by their UTF-8 bytes, so a string key
is represented here by its UTF-8 byte sequence. -/
def strEncode (s : Bytes) : Bytes := 2 :: s

/-- Modelled from the spec: Bool keys are "tag byte + one byte (0/1)". -/
def boolEncode (b : Bool) : Bytes := 3 :: [if b then 1 else 0]

/-- Modelled from the spec: the Float64 "sign/exponent/mantissa bit transform"
on the 64-bit IEEE-754 pattern: negative patterns (sign bit set) have all
bits inverted, nonnegative patterns have the sign bit flipped on, making
byte-wise order agree with numeric order. -/
def transF (w : Nat) : Nat := if w < 2 ^ 63 then w + 2 ^ 63 else 2 ^ 64 - 1 - w

/-- Inverse of `transF` on 64-bit patterns. -/
def untransF (u : Nat) : Nat := if 2 ^ 63 ≤ u then u - 2 ^ 63 else 2 ^ 64 - 1 - u

/-- Magnitude of a 63-bit sign-stripped IEEE-754 pattern `p`, scaled by
`2 ^ 1074` so that it is a natural number: subnormals (exponent field 0)
denote `m * 2 ^ -1074`, normals `(2 ^ 52 + m) * 2 ^ (e - 1075)`. -/
def mag (p : Nat) : Nat :=
  if p < 2 ^ 52 then p else (2 ^ 52 + p % 2 ^ 52) * 2 ^ (p / 2 ^ 52 - 1)

/-- The numeric value denoted by a 64-bit IEEE-754 pattern, scaled by
`2 ^ 1074` (an integer). -/
def toScaled (w : Nat) : Int :=
  if w < 2 ^ 63 then (mag w : Int) else -(mag (w - 2 ^ 63) : Int)

/-- A 64-bit pattern usable as a Float64 key: finite (exponent field not
all-ones, the spec's "NaN-excluded ranges") and not negative zero (the one
pattern denoting a value shared with another pattern). -/
def validFloat (w : Nat) : Prop :=
  w < 2 ^ 64 ∧ w ≠ 2 ^ 63 ∧ (w % 2 ^ 63) / 2 ^ 52 ≠ 2047

instance validFloat_dec : DecidablePred validFloat := by
  intro w
  unfold validFloat
  infer_instance

/-- A Float64 key: a valid 64-bit IEEE-754 pattern. -/
def FloatKey : Type := { w : Nat // validFloat w }

theorem mag_of_small {p : Nat} (h : p < 2 ^ 52) : mag p = p := by
  unfold mag; rw [if_pos h]

theorem mag_of_large {p : Nat} (h : ¬ p < 2 ^ 52) :
    mag p = (2 ^ 52 + p % 2 ^ 52) * 2 ^ (p / 2 ^ 52 - 1) := by
  unfold mag; rw [if_neg h]

theorem mag_strictMono : StrictMono mag := by
  intro p1 p2 h
  by_cases h1 : p1 < 2 ^ 52
  · by_cases h2 : p2 < 2 ^ 52
    · rw [mag_of_small h1, mag_of_small h2]; exact h
    · have hp2 : 2 ^ 52 ≤ p2 := le_of_not_lt h2
      have hpos : 0 < 2 ^ (p2 / 2 ^ 52 - 1) := Nat.pos_pow_of_pos _ (by omega)
      have hlt : p1 < 2 ^ 52 + p2 % 2 ^ 52 := by omega
      have hmul := le_mul_of_one_le_right (Nat.zero_le (2 ^ 52 + p2 % 2 ^ 52)) hpos
      rw [mag_of_small h1, mag_of_large h2]
      omega
  · have h2 : ¬ p2 < 2 ^ 52 := by omega
    have hp1 : 2 ^ 52 ≤ p1 := le_of_not_lt h1
    have hp2 : 2 ^ 52 ≤ p2 := le_of_not_lt h2
    have he1 : 1 ≤ p1 / 2 ^ 52 := (Nat.one_le_div_iff (by positivity)).mpr hp1
    have he2 : 1 ≤ p2 / 2 ^ 52 := (Nat.one_le_div_iff (by positivity)).mpr hp2
    have hd : p1 / 2 ^ 52 ≤ p2 / 2 ^ 52 := Nat.div_le_div_right (le_of_lt h)
    rw [mag_of_large h1, mag_of_large h2]
    rcases eq_or_lt_of_le hd with heq | hlt
    · have hdm1 : 2 ^ 52 * (p2 / 2 ^ 52) + p1 % 2 ^ 52 = p1 := by
        rw [← heq]; exact Nat.div_add_mod p1 (2 ^ 52)
      have hdm2 : 2 ^ 52 * (p2 / 2 ^ 52) + p2 % 2 ^ 52 = p2 := Nat.div_add_mod p2 (2 ^ 52)
      have hm : p1 % 2 ^ 52 < p2 % 2 ^ 52 := by omega
      rw [heq]
      exact mul_lt_mul_of_pos_right (by omega) (Nat.pos_pow_of_pos _ (by omega))
    · have hmod1 : p1 % 2 ^ 52 < 2 ^ 52 := Nat.mod_lt _ (by positivity)
      calc (2 ^ 52 + p1 % 2 ^ 52) * 2 ^ (p1 / 2 ^ 52 - 1)
          < 2 ^ 53 * 2 ^ (p1 / 2 ^ 52 - 1) := by
            exact mul_lt_mul_of_pos_right (by omega) (Nat.pos_pow_of_pos _ (by omega))
        _ = 2 ^ (52 + p1 / 2 ^ 52) := by
            rw [← pow_add]; congr 1; omega
        _ ≤ 2 ^ (52 + (p2 / 2 ^ 52 - 1)) := Nat.pow_le_pow_right (by omega) (by omega)
        _ = 2 ^ 52 * 2 ^ (p2 / 2 ^ 52 - 1) := by rw [← pow_add]
        _ ≤ (2 ^ 52 + p2 % 2 ^ 52) * 2 ^ (p2 / 2 ^ 52 - 1) :=
            mul_le_mul_right' (by omega) _

theorem mag_pos {p : Nat} (hp : 0 < p) : 0 < mag p := by
  by_cases h : p < 2 ^ 52
  · rw [mag_of_small h]; exact hp
  · rw [mag_of_large h]
    exact Nat.mul_pos (by positivity) (Nat.pos_pow_of_pos _ (by omega))

/-- The bit transform preserves exactly the numeric (scaled-value) order of
valid patterns. -/
theorem toScaled_lt_iff_transF {w1 w2 : Nat} (h1 : validFloat w1) (h2 : validFloat w2) :
    toScaled w1 < toScaled w2 ↔ transF w1 < transF w2 := by
  obtain ⟨hb1, hz1, -⟩ := h1
  obtain ⟨hb2, hz2, -⟩ := h2
  unfold toScaled transF
  by_cases s1 : w1 < 2 ^ 63
  · by_cases s2 : w2 < 2 ^ 63
    · rw [if_pos s1, if_pos s2, if_pos s1, if_pos s2, Nat.cast_lt,
        mag_strictMono.lt_iff_lt]
      omega
    · apply iff_of_false
      · rw [if_pos s1, if_neg s2]
        have hpos : 0 < mag (w2 - 2 ^ 63) := mag_pos (by omega)
        omega
      · rw [if_pos s1, if_neg s2]
        omega
  · by_cases s2 : w2 < 2 ^ 63
    · apply iff_of_true
      · rw [if_neg s1, if_pos s2]
        have hpos : 0 < mag (w1 - 2 ^ 63) := mag_pos (by omega)
        omega
      · rw [if_neg s1, if_pos s2]
        omega
    · rw [if_neg s1, if_neg s2, if_neg s1, if_neg s2, neg_lt_neg_iff,
        Nat.cast_lt, mag_strictMono.lt_iff_lt]
      omega

theorem transF_lt_bound {w : Nat} (h : w < 2 ^ 64) : transF w < 2 ^ 64 := by
  unfold transF
  split <;> omega

theorem untransF_transF {w : Nat} (h : w < 2 ^ 64) : untransF (transF w) = w := by
  unfold transF untransF
  by_cases hw : w < 2 ^ 63 <;> simp only [hw, if_true, if_false] <;> split <;> omega

theorem toScaledK_injective : Function.Injective (fun x : FloatKey => toScaled x.1) := by
  intro a b hab
  apply Subtype.ext
  have hab' : toScaled a.1 = toScaled b.1 := hab
  have hne1 : ¬ toScaled a.1 < toScaled b.1 := by rw [hab']; exact lt_irrefl _
  have hne2 : ¬ toScaled b.1 < toScaled a.1 := by rw [hab']; exact lt_irrefl _
  have ht1 : ¬ transF a.1 < transF b.1 := fun hc =>
    hne1 ((toScaled_lt_iff_transF a.2 b.2).mpr hc)
  have ht2 : ¬ transF b.1 < transF a.1 := fun hc =>
    hne2 ((toScaled_lt_iff_transF b.2 a.2).mpr hc)
  have heq : transF a.1 = transF b.1 := by omega
  have ha := a.2.1
  have hb := b.2.1
  unfold transF at heq
  by_cases c1 : a.1 < 2 ^ 63 <;> by_cases c2 : b.1 < 2 ^ 63 <;>
    simp only [c1, c2, if_true, if_false] at heq <;> omega

instance : LinearOrder FloatKey :=
  LinearOrder.lift' (fun x : FloatKey => toScaled x.1) toScaledK_injective

theorem floatKey_lt_iff (a b : FloatKey) : a < b ↔ toScaled a.1 < toScaled b.1 :=
  Iff.rfl

/-- Modelled from the spec: Float64 keys are "tag byte + the transformed
64-bit pattern" in big-endian byte order. -/
def floatEncode (x : FloatKey) : Bytes := 4 :: beDigits 8 (transF x.1)

theorem pow256_8 : (256 : Nat) ^ 8 = 2 ^ 64 := by norm_num

theorem bytesEncode_strictMono : StrictMono bytesEncode :=
  fun _ _ h => List.Lex.cons h

theorem strEncode_strictMono : StrictMono strEncode :=
  fun _ _ h => List.Lex.cons h

theorem boolEncode_strictMono : StrictMono boolEncode := by
  intro a b h
  rcases Bool.lt_iff.mp h with ⟨ha, hb⟩
  subst ha; subst hb
  decide

theorem floatEncode_strictMono : StrictMono floatEncode := by
  intro a b h
  have hs : toScaled a.1 < toScaled b.1 := (floatKey_lt_iff a b).mp h
  have ht : transF a.1 < transF b.1 := (toScaled_lt_iff_transF a.2 b.2).mp hs
  have hb : transF b.1 < 256 ^ 8 := by
    rw [pow256_8]; exact transF_lt_bound b.2.1
  exact List.Lex.cons (beDigits_lt 8 _ _ ht hb)

/-! ## Typed keys and values (spec section 3, 4.1, 4.2) -/

/-- Modelled from the spec: the tagged variant of supported key types. -/
inductive TypedKey where
  | intK (n : Nat)
  | bytesK (b : Bytes)
  | strK (s : Bytes)
  | boolK (b : Bool)
  | floatK (w : Nat)
deriving DecidableEq

/-- The tag byte of a key type; distinct tags partition the byte space. -/
def keyTag : TypedKey → Nat
  | .intK _ => 0
  | .bytesK _ => 1
  | .strK _ => 2
  | .boolK _ => 3
  | .floatK _ => 4

/-- Modelled from the spec: `KeyCodec.encode`, dispatching on the tag. -/
def encodeKey : TypedKey → Bytes
  | .intK n => intEncode n
  | .bytesK b => bytesEncode b
  | .strK s => strEncode s
  | .boolK b => boolEncode b
  | .floatK w => 4 :: beDigits 8 (transF w)

/-- Modelled from the spec: `KeyCodec.decode`, recovering the typed key from
the tag byte and payload. -/
def decodeKey : Bytes → Option TypedKey
  | 0 :: ds => some (.intK (fromBE ds))
  | 1 :: ds => some (.bytesK ds)
  | 2 :: ds => some (.strK ds)
  | 3 :: ds =>
      if ds = [0] then some (.boolK false)
      else if ds = [1] then some (.boolK true) else none
  | 4 :: ds =>
      if ds.length = 8 then some (.floatK (untransF (fromBE ds))) else none
  | _ => none

/-- Keys whose payload is representable: float patterns fit in 64 bits. -/
def validKey : TypedKey → Prop
  | .floatK w => w < 2 ^ 64
  | _ => True

/-- Modelled from the spec: the tagged variant of supported value types, with
the Opaque arm carrying the generic object serializer's output. -/
inductive TypedValue where
  | intV (n : Nat)
  | bytesV (b : Bytes)
  | strV (s : Bytes)
  | boolV (b : Bool)
  | floatV (w : Nat)
  | opaqueV (payload : Bytes)
deriving DecidableEq

/-- Modelled from the spec: `ValueCodec.encode` reuses the scalar byte rules
of the key codec and wraps serialized objects with the Opaque tag. -/
def encodeValue : TypedValue → Bytes
  | .intV n => intEncode n
  | .bytesV b => bytesEncode b
  | .strV s => strEncode s
  | .boolV b => boolEncode b
  | .floatV w => 4 :: beDigits 8 (transF w)
  | .opaqueV p => 5 :: p

/-- Modelled from the spec: `ValueCodec.decode`. -/
def decodeValue : Bytes → Option TypedValue
  | 0 :: ds => some (.intV (fromBE ds))
  | 1 :: ds => some (.bytesV ds)
  | 2 :: ds => some (.strV ds)
  | 3 :: ds =>
      if ds = [0] then some (.boolV false)
      else if ds = [1] then some (.boolV true) else none
  | 4 :: ds =>
      if ds.length = 8 then some (.floatV (untransF (fromBE ds))) else none
  | 5 :: ds => some (.opaqueV ds)
  | _ => none

/-- Values whose payload is representable: float patterns fit in 64 bits. -/
def validValue : TypedValue → Prop
  | .floatV w => w < 2 ^ 64
  | _ => True

theorem decodeKey_encodeKey {k : TypedKey} (h : validKey k) :
    decodeKey (encodeKey k) = some k := by
  cases k with
  | intK n =>
    simp [encodeKey, intEncode, decodeKey, fromBE_beDigits (numBytes_bound n)]
  | bytesK b => simp [encodeKey, bytesEncode, decodeKey]
  | strK s => simp [encodeKey, strEncode, decodeKey]
  | boolK b => cases b <;> simp [encodeKey, boolEncode, decodeKey]
  | floatK w =>
    have hw : w < 2 ^ 64 := h
    have hb : transF w < 256 ^ 8 := by rw [pow256_8]; exact transF_lt_bound hw
    simp [encodeKey, decodeKey, beDigits_length, fromBE_beDigits hb,
      untransF_transF hw]

theorem decodeValue_encodeValue {v : TypedValue} (h : validValue v) :
    decodeValue (encodeValue v) = some v := by
  cases v with
  | intV n =>
    simp [encodeValue, intEncode, decodeValue, fromBE_beDigits (numBytes_bound n)]
  | bytesV b => simp [encodeValue, bytesEncode, decodeValue]
  | strV s => simp [encodeValue, strEncode, decodeValue]
  | boolV b => cases b <;> simp [encodeValue, boolEncode, decodeValue]
  | floatV w =>
    have hw : w < 2 ^ 64 := h
    have hb : transF w < 256 ^ 8 := by rw [pow256_8]; exact transF_lt_bound hw
    simp [encodeValue, decodeValue, beDigits_length, fromBE_beDigits hb,
      untransF_transF hw]
  | opaqueV p => simp [encodeValue, decodeValue]

theorem encodeKey_head (k : TypedKey) : (encodeKey k).head? = some (keyTag k) := by
  cases k <;> rfl

theorem encodeKey_tag_disjoint {k1 k2 : TypedKey} (h : keyTag k1 ≠ keyTag k2) :
    encodeKey k1 ≠ encodeKey k2 := by
  intro hc
  apply h
  have h1 := encodeKey_head k1
  have h2 := encodeKey_head k2
  rw [hc] at h1
  rw [h1] at h2
  exact Option.some_injective _ h2

/-! ## Wide columns (spec section 4.2) -/

/-- A wide column: name and value, both byte strings (in typed mode the value
bytes are a `ValueCodec` encoding, in raw mode caller bytes). -/
abbrev WideCol := Bytes × Bytes

/-- Column-name order used by the wide-column encoding. -/
def colNameLe (p q : WideCol) : Prop := p.1 ≤ q.1

instance colNameLe_total : IsTotal WideCol colNameLe :=
  ⟨fun a b => le_total a.1 b.1⟩

instance colNameLe_trans : IsTrans WideCol colNameLe :=
  ⟨fun _ _ _ h1 h2 => le_trans h1 h2⟩

instance colNameLe_dec : DecidableRel colNameLe := fun p q =>
  inferInstanceAs (Decidable (p.1 ≤ q.1))

/-- The wide-column set sorted by column name. -/
def sortCols (cols : List WideCol) : List WideCol :=
  List.insertionSort colNameLe cols

/-- Modelled from the spec: `encode_wide` concatenates (name-length, name,
value-length, value) tuples sorted by name; the empty name is the default
column and, being lexicographically least, comes first. -/
def encodeWide (cols : List WideCol) : Bytes :=
  ((sortCols cols).map fun c => c.1.length :: c.1 ++ (c.2.length :: c.2)).flatten

/-- Modelled from the spec: `get_entity` returns the stored column set sorted
by name. -/
def getEntityCols (cols : List WideCol) : List WideCol := sortCols cols

/-- Modelled from the spec: a plain `get` against a wide-column key returns
only the default (empty-named) column's value, and the empty scalar when the
entity has no default column. -/
def plainGetOfCols : List WideCol → Bytes
  | [] => []
  | c :: rest => if c.1 = [] then c.2 else plainGetOfCols rest

theorem sortCols_sorted (cols : List WideCol) :
    (sortCols cols).Sorted colNameLe :=
  List.sorted_insertionSort colNameLe cols

theorem sortCols_perm (cols : List WideCol) : (sortCols cols).Perm cols :=
  List.perm_insertionSort colNameLe cols

theorem plainGet_default {cols : List WideCol} {v : Bytes}
    (hnodup : (cols.map Prod.fst).Nodup) (hmem : (([] : Bytes), v) ∈ cols) :
    plainGetOfCols cols = v := by
  induction cols with
  | nil => cases hmem
  | cons c rest ih =>
    have hnodup2 : (c.1 :: rest.map Prod.fst).Nodup := hnodup
    obtain ⟨hnotin, htnodup⟩ := List.nodup_cons.mp hnodup2
    rcases List.mem_cons.mp hmem with heq | hrest
    · rw [← heq]
      unfold plainGetOfCols
      rw [if_pos rfl]
    · have hc1 : c.1 ≠ [] := by
        intro hnil
        rw [hnil] at hnotin
        exact hnotin (List.mem_map.mpr ⟨(([] : Bytes), v), hrest, rfl⟩)
      unfold plainGetOfCols
      rw [if_neg hc1]
      exact ih htnodup hrest

theorem plainGet_no_default {cols : List WideCol}
    (h : ∀ c ∈ cols, c.1 ≠ []) : plainGetOfCols cols = [] := by
  induction cols with
  | nil => rfl
  | cons c rest ih =>
    unfold plainGetOfCols
    rw [if_neg (h c (List.mem_cons_self _ _))]
    exact ih fun d hd => h d (List.mem_cons_of_mem _ hd)

/-- In a name-sorted column list containing the default column, the default
column comes first. -/
theorem sortCols_default_first {cols : List WideCol} {v : Bytes}
    (hnodup : (cols.map Prod.fst).Nodup) (hmem : (([] : Bytes), v) ∈ cols) :
    ∃ rest, sortCols cols = (([] : Bytes), v) :: rest := by
  have hperm := sortCols_perm cols
  have hmem' : (([] : Bytes), v) ∈ sortCols cols := hperm.mem_iff.mpr hmem
  have hsorted := sortCols_sorted cols
  have hnodup' : ((sortCols cols).map Prod.fst).Nodup := by
    have : ((sortCols cols).map Prod.fst).Perm (cols.map Prod.fst) := hperm.map _
    exact this.nodup_iff.mpr hnodup
  cases hsort : sortCols cols with
  | nil => rw [hsort] at hmem'; cases hmem'
  | cons c rest =>
    rw [hsort] at hmem' hsorted hnodup'
    rcases List.mem_cons.mp hmem' with heq | hrest
    · exact ⟨rest, by rw [← heq]⟩
    · exfalso
      have hle : colNameLe c (([] : Bytes), v) :=
        List.rel_of_sorted_cons hsorted _ hrest
      have hceq : c.1 = [] := le_antisymm hle List.nil_le
      have hin : ([] : Bytes) ∈ rest.map Prod.fst :=
        List.mem_map.mpr ⟨(([] : Bytes), v), hrest, rfl⟩
      have hnodup2 : (c.1 :: rest.map Prod.fst).Nodup := hnodup'
      have hnotin := (List.nodup_cons.mp hnodup2).1
      rw [hceq] at hnotin
      exact hnotin hin

/-! ## An association-list store (the per-column-family key-value map) -/

/-- One column family's contents: an association list from encoded keys to
encoded values (first binding wins). -/
abbrev Assoc := List (Bytes × Bytes)

def lookupA : Assoc → Bytes → Option Bytes
  | [], _ => none
  | (k', v) :: rest, k => if k' = k then some v else lookupA rest k

/-- Remove every binding of key `k`. -/
def delA (m : Assoc) (k : Bytes) : Assoc :=
  m.filter fun p => decide (p.1 ≠ k)

/-- Bind key `k` to value `v`, replacing any previous binding. -/
def putA (m : Assoc) (k v : Bytes) : Assoc := (k, v) :: delA m k

theorem lookupA_delA_self (m : Assoc) (k : Bytes) : lookupA (delA m k) k = none := by
  induction m with
  | nil => rfl
  | cons p rest ih =>
    obtain ⟨a, b⟩ := p
    by_cases hp : a = k
    · have hdel : delA ((a, b) :: rest) k = delA rest k := by
        simp [delA, List.filter_cons, hp]
      rw [hdel, ih]
    · have hdel : delA ((a, b) :: rest) k = (a, b) :: delA rest k := by
        simp [delA, List.filter_cons, hp]
      rw [hdel]
      simp only [lookupA]
      rw [if_neg hp, ih]

theorem lookupA_delA_ne (m : Assoc) {k k' : Bytes} (h : k' ≠ k) :
    lookupA (delA m k) k' = lookupA m k' := by
  induction m with
  | nil => rfl
  | cons p rest ih =>
    obtain ⟨a, b⟩ := p
    by_cases hp : a = k
    · have hak : a ≠ k' := by rw [hp]; exact fun hc => h hc.symm
      have hdel : delA ((a, b) :: rest) k = delA rest k := by
        simp [delA, List.filter_cons, hp]
      rw [hdel, ih]
      simp only [lookupA]
      rw [if_neg hak]
    · have hdel : delA ((a, b) :: rest) k = (a, b) :: delA rest k := by
        simp [delA, List.filter_cons, hp]
      by_cases hak : a = k'
      · rw [hdel]
        simp only [lookupA]
        rw [if_pos hak, if_pos hak]
      · rw [hdel]
        simp only [lookupA]
        rw [if_neg hak, if_neg hak, ih]

theorem lookupA_putA_self (m : Assoc) (k v : Bytes) :
    lookupA (putA m k v) k = some v := by
  simp [putA, lookupA]

theorem lookupA_putA_ne (m : Assoc) {k k' : Bytes} (v : Bytes) (h : k' ≠ k) :
    lookupA (putA m k v) k' = lookupA m k' := by
  have hne : k ≠ k' := fun hc => h hc.symm
  simp only [putA, lookupA, hne, if_false]
  exact lookupA_delA_ne m h

/-! ## Snapshots (spec section 4.7)

Modelled from the spec: `snapshot()` is an O(1) capture of the current
sequence point; reads through it are frozen as of capture time regardless of
subsequent puts/deletes on the live store.  The model keeps the live map and
the list of captured snapshots (most recent first). -/

structure SnapState where
  live : Assoc
  snaps : List Assoc

/-- A mutation on the live store: put (insert/overwrite) or delete. -/
inductive MutOp where
  | put (k v : Bytes)
  | del (k : Bytes)

/-- Modelled from the spec: live mutations touch only the live map. -/
def applyMut (st : SnapState) : MutOp → SnapState
  | .put k v => { st with live := putA st.live k v }
  | .del k => { st with live := delA st.live k }

def applyMuts (st : SnapState) (ops : List MutOp) : SnapState :=
  ops.foldl applyMut st

/-- Modelled from the spec: taking a snapshot captures the live map
(prepended, so the newest snapshot has index 0). -/
def takeSnapshot (st : SnapState) : SnapState :=
  { st with snaps := st.live :: st.snaps }

/-- Read key `k` through snapshot number `i`. -/
def snapRead (st : SnapState) (i : Nat) (k : Bytes) : Option Bytes :=
  (st.snaps.get? i).bind fun s => lookupA s k

/-- Iterate all entries of snapshot number `i`. -/
def snapItems (st : SnapState) (i : Nat) : Assoc :=
  (st.snaps.get? i).getD []

theorem applyMuts_snaps (ops : List MutOp) :
    ∀ st : SnapState, (applyMuts st ops).snaps = st.snaps := by
  induction ops with
  | nil => intro st; rfl
  | cons op rest ih =>
    intro st
    have hstep : (applyMut st op).snaps = st.snaps := by
      cases op <;> rfl
    rw [applyMuts, List.foldl_cons]
    exact (ih (applyMut st op)).trans hstep

/-! ## WriteBatch (spec section 4.6)

Modelled from the spec: a batch is an ordered sequence of Put/Delete
entries; `write` applies them in insertion order in one atomic step. -/

inductive BatchEntry where
  | put (k v : Bytes)
  | del (k : Bytes)

/-- Whether a batch entry mutates key `K`. -/
def entryTargets (K : Bytes) : BatchEntry → Prop
  | .put k _ => k = K
  | .del k => k = K

def applyEntry (m : Assoc) : BatchEntry → Assoc
  | .put k v => putA m k v
  | .del k => delA m k

/-- Modelled from the spec: `write(batch)` folds the entries over the store
in insertion order, in one step. -/
def writeBatch (m : Assoc) (b : List BatchEntry) : Assoc :=
  b.foldl applyEntry m

theorem writeBatch_frame {K : Bytes} (b : List BatchEntry) :
    ∀ m : Assoc, (∀ e ∈ b, ¬ entryTargets K e) →
      lookupA (writeBatch m b) K = lookupA m K := by
  induction b with
  | nil => intro m _; rfl
  | cons e rest ih =>
    intro m h
    have hstep : lookupA (applyEntry m e) K = lookupA m K := by
      cases e with
      | put k v =>
        have hne : K ≠ k := fun hc => h _ (List.mem_cons_self _ _) hc.symm
        exact lookupA_putA_ne m v hne
      | del k =>
        have hne : K ≠ k := fun hc => h _ (List.mem_cons_self _ _) hc.symm
        exact lookupA_delA_ne m hne
    rw [writeBatch, List.foldl_cons]
    exact (ih (applyEntry m e) fun d hd => h d (List.mem_cons_of_mem _ hd)).trans hstep

theorem writeBatch_append (m : Assoc) (b1 b2 : List BatchEntry) :
    writeBatch m (b1 ++ b2) = writeBatch (writeBatch m b1) b2 :=
  List.foldl_append _ _ _ _

/-! ## Closed-handle behavior (spec sections 4.3, 7)

Modelled from the spec: `close()` invalidates the Store and every handle
derived from it; subsequent use fails with the closed-database error rather
than undefined behavior. -/

inductive DbErr where
  | dbClosed
  | keyError
deriving DecidableEq

/-- The column families of an open database, indexed by handle id. -/
abbrev CfStores := List (Nat × Assoc)

def lookupCf (db : CfStores) (cf : Nat) : Assoc :=
  match db.find? (fun p => p.1 == cf) with
  | some p => p.2
  | none => []

def updateCf (db : CfStores) (cf : Nat) (f : Assoc → Assoc) : CfStores :=
  db.map fun p => if p.1 = cf then (p.1, f p.2) else p

/-- A database connection: `none` once closed. -/
abbrev DbConn := Option CfStores

/-- An operation issued through the store handle or a column-family handle
derived from it. -/
inductive DbOp where
  | getOp (cf : Nat) (k : Bytes)
  | putOp (cf : Nat) (k v : Bytes)
  | delOp (cf : Nat) (k : Bytes)
  | flushOp

/-- Modelled from the spec: every operation checks the connection first and
fails with the closed error on a closed store. -/
def runOp : DbConn → DbOp → Except DbErr (DbConn × Option Bytes)
  | none, _ => .error .dbClosed
  | some db, .getOp cf k => .ok (some db, lookupA (lookupCf db cf) k)
  | some db, .putOp cf k v => .ok (some (updateCf db cf (fun m => putA m k v)), none)
  | some db, .delOp cf k => .ok (some (updateCf db cf (fun m => delA m k)), none)
  | some db, .flushOp => .ok (some db, none)

/-- Modelled from the spec: `close()` drops the connection. -/
def closeDb : DbConn → DbConn := fun _ => none

/-! ## Strict and defaulting accessors (spec section 7, NotFound)

Modelled from the spec and the Python wrapper's `__getitem__`/`get`: the
strict accessor raises the key-not-found condition, the defaulting accessor
returns the caller's default (`None` when unspecified). -/

/-- The strict accessor (`db[key]`). -/
def getItemStrict (m : Assoc) (k : Bytes) : Except DbErr Bytes :=
  match lookupA m k with
  | some v => .ok v
  | none => .error .keyError

/-- The defaulting accessor (`db.get(key, default=None)`). -/
def getWithDefault (m : Assoc) (k : Bytes) (dflt : Option Bytes) : Option Bytes :=
  match lookupA m k with
  | some v => some v
  | none => dflt

/-! ## The RdictIter cursor (spec section 4.5)

Modelled from the spec: `RdictIter` is the Rust-side cursor over one column
family.  The cursor holds the (lexicographically sorted) entry list and a
position; `none` is the invalid/exhausted position.  `seek` lands on the
smallest entry `≥ k`, `seek_for_prev` on the largest `≤ k`. -/

structure Cursor where
  entries : List (Bytes × Bytes)
  pos : Option Nat
deriving DecidableEq

def cursorSeekToFirst (c : Cursor) : Cursor :=
  { c with pos := if c.entries.length = 0 then none else some 0 }

def cursorSeekToLast (c : Cursor) : Cursor :=
  { c with pos := if c.entries.length = 0 then none else some (c.entries.length - 1) }

def cursorSeek (c : Cursor) (k : Bytes) : Cursor :=
  let i := (c.entries.takeWhile fun e => decide (e.1 < k)).length
  { c with pos := if i < c.entries.length then some i else none }

def cursorSeekForPrev (c : Cursor) (k : Bytes) : Cursor :=
  let i := (c.entries.takeWhile fun e => decide (e.1 ≤ k)).length
  { c with pos := if i = 0 then none else some (i - 1) }

def cursorValid (c : Cursor) : Bool := c.pos.isSome

def cursorNext (c : Cursor) : Cursor :=
  { c with pos := match c.pos with
      | some i => if i + 1 < c.entries.length then some (i + 1) else none
      | none => none }

def cursorPrev (c : Cursor) : Cursor :=
  { c with pos := match c.pos with
      | some i => if i = 0 then none else some (i - 1)
      | none => none }

def cursorKey (c : Cursor) : Bytes :=
  match c.pos with
  | some i => ((c.entries.get? i).map Prod.fst).getD []
  | none => []

def cursorValue (c : Cursor) : Bytes :=
  match c.pos with
  | some i => ((c.entries.get? i).map Prod.snd).getD []
  | none => []

/-! ## The Python iterator wrappers (src/python/rocksdict/__init__.py)

`RdictItems`, `RdictKeys` and `RdictValues` share the same `__init__`
dispatch: `if from_key: seek / seek_for_prev` depending on direction,
`elif backward: seek_to_last`, `else: seek_to_first`; `__reversed__` builds a
new wrapper over the same inner cursor with the direction flipped and the
stored `from_key`; `__next__` reads the cursor and advances it in the stored
direction.  Here keys are byte strings, for which Python truthiness is
nonemptiness. -/

structure ItersState where
  inner : Cursor
  backward : Bool
  fromKey : Option Bytes
deriving DecidableEq

/-- `RdictItems.__init__` (identical in `RdictKeys`/`RdictValues`): note the
dispatch tests the truthiness of `from_key`, not its presence. -/
def rdictItemsInit (inner : Cursor) (backward : Bool) (fromKey : Option Bytes) :
    ItersState :=
  match fromKey with
  | some k =>
      if k ≠ [] then
        { inner := if backward then cursorSeekForPrev inner k else cursorSeek inner k,
          backward := backward, fromKey := some k }
      else if backward then
        { inner := cursorSeekToLast inner, backward := true, fromKey := some k }
      else
        { inner := cursorSeekToFirst inner, backward := false, fromKey := some k }
  | none =>
      if backward then
        { inner := cursorSeekToLast inner, backward := true, fromKey := none }
      else
        { inner := cursorSeekToFirst inner, backward := false, fromKey := none }

/-- `RdictItems.__reversed__`: a new wrapper over the same inner cursor with
the flipped direction and the stored (original) `from_key`. -/
def rdictItemsReversed (s : ItersState) : ItersState :=
  rdictItemsInit s.inner (!s.backward) s.fromKey

/-- `RdictItems.__next__`: yield the current entry and advance in the
iterator's direction; stop when the cursor is invalid. -/
def itersNext (s : ItersState) : Option ((Bytes × Bytes) × ItersState) :=
  if cursorValid s.inner then
    some ((cursorKey s.inner, cursorValue s.inner),
      { s with inner := if s.backward then cursorPrev s.inner else cursorNext s.inner })
  else none

/-- Run the iterator for at most `fuel` steps, collecting the yielded pairs. -/
def itersTake : Nat → ItersState → List (Bytes × Bytes)
  | 0, _ => []
  | fuel + 1, s =>
      match itersNext s with
      | some (kv, s') => kv :: itersTake fuel s'
      | none => []

/-- All seek primitives ignore the cursor's previous position, so
initialization from any cursor position equals initialization from a fresh
cursor over the same entries. -/
theorem rdictItemsInit_pos_irrelevant (entries : List (Bytes × Bytes))
    (pos pos' : Option Nat) (backward : Bool) (fromKey : Option Bytes) :
    rdictItemsInit ⟨entries, pos⟩ backward fromKey
      = rdictItemsInit ⟨entries, pos'⟩ backward fromKey := by
  cases fromKey with
  | none =>
    cases backward <;>
      simp [rdictItemsInit, cursorSeekToFirst, cursorSeekToLast]
  | some k =>
    by_cases hk : k ≠ [] <;> cases backward <;>
      simp [rdictItemsInit, hk, cursorSeek, cursorSeekForPrev,
        cursorSeekToFirst, cursorSeekToLast]

/-- The backward-direction flag stored by the wrapper always equals the
requested direction. -/
theorem rdictItemsInit_backward (inner : Cursor) (backward : Bool)
    (fromKey : Option Bytes) :
    (rdictItemsInit inner backward fromKey).backward = backward := by
  cases fromKey with
  | none => cases backward <;> simp [rdictItemsInit]
  | some k =>
    by_cases hk : k ≠ [] <;> cases backward <;> simp [rdictItemsInit, hk]

/-! ## Python-level keys and the wrappers' from_key dispatch
(src/python/rocksdict/__init__.py)

The wrapper constructors receive `from_key` of any supported key type and
test `if from_key:` — Python truthiness, not presence.  The effect of the
dispatch is recorded as the seek action requested from the inner cursor. -/

/-- A Python value usable as a key (floats by their 64-bit IEEE-754
pattern). -/
inductive PyKey where
  | pyInt (n : Int)
  | pyFloat (w : Nat)
  | pyBool (b : Bool)
  | pyStr (s : Bytes)
  | pyBytes (b : Bytes)
deriving DecidableEq

/-- Python truthiness of a key value: zero numbers (for floats, the +0.0 and
-0.0 patterns), False, and empty strings/bytes are falsy. -/
def pyTruthy : PyKey → Bool
  | .pyInt n => decide (n ≠ 0)
  | .pyFloat w => decide (w ≠ 0 ∧ w ≠ 2 ^ 63)
  | .pyBool b => b
  | .pyStr s => decide (s ≠ [])
  | .pyBytes b => decide (b ≠ [])

/-- The seek the wrapper requests from the inner cursor at construction. -/
inductive SeekAction where
  | seekKey (k : PyKey)
  | seekForPrevKey (k : PyKey)
  | toFirst
  | toLast
deriving DecidableEq

/-- `RdictItems.__init__` dispatch: `if from_key: ... elif backward:
seek_to_last() else: seek_to_first()`. -/
def rdictItemsInitAction (backward : Bool) (fromKey : Option PyKey) : SeekAction :=
  match fromKey with
  | some k =>
      if pyTruthy k then
        (if backward then .seekForPrevKey k else .seekKey k)
      else if backward then .toLast
      else .toFirst
  | none => if backward then .toLast else .toFirst

/-- `RdictKeys.__init__` dispatch (textually identical to `RdictItems`). -/
def rdictKeysInitAction (backward : Bool) (fromKey : Option PyKey) : SeekAction :=
  match fromKey with
  | some k =>
      if pyTruthy k then
        (if backward then .seekForPrevKey k else .seekKey k)
      else if backward then .toLast
      else .toFirst
  | none => if backward then .toLast else .toFirst

/-- `RdictValues.__init__` dispatch (textually identical to `RdictItems`). -/
def rdictValuesInitAction (backward : Bool) (fromKey : Option PyKey) : SeekAction :=
  match fromKey with
  | some k =>
      if pyTruthy k then
        (if backward then .seekForPrevKey k else .seekKey k)
      else if backward then .toLast
      else .toFirst
  | none => if backward then .toLast else .toFirst

/-- Exact seek for any strictly monotone encoding over a sorted typed store. -/
theorem seek_exact_of_strictMono {K : Type} [LinearOrder K] {enc : K → Bytes}
    (hmono : StrictMono enc) (S : List K) (k : K) (hs : S.Pairwise (· < ·)) :
    seekFwd (S.map enc) (enc k) = (S.filter fun a => decide (k ≤ a)).map enc ∧
    seekBwd (S.map enc) (enc k)
      = ((S.filter fun a => decide (a ≤ k)).map enc).reverse :=
  seek_exact_generic enc S k hs (strictMono_seek_iffs hmono S k).1
    (strictMono_seek_iffs hmono S k).2

theorem intEncode_length (n : Nat) : (intEncode n).length = numBytes n + 1 := by
  simp [intEncode, beDigits_length]

theorem intEncode_lt_of_lt_same {a b : Nat} (hab : a < b)
    (hlen : numBytes a = numBytes b) : intEncode a < intEncode b := by
  unfold intEncode
  rw [hlen]
  exact List.Lex.cons (beDigits_lt _ a b hab (numBytes_bound b))

theorem intEncode_lt_iff_same {a k : Nat} (hlen : numBytes a = numBytes k) :
    intEncode a < intEncode k ↔ a < k := by
  constructor
  · intro h
    by_contra hna
    rcases eq_or_lt_of_le (not_lt.mp hna) with heq | hlt
    · rw [heq] at h
      exact absurd h (lt_irrefl _)
    · exact absurd h (lt_asymm (intEncode_lt_of_lt_same hlt hlen.symm))
  · intro h
    exact intEncode_lt_of_lt_same h hlen

theorem intEncode_le_iff_same {a k : Nat} (hlen : numBytes a = numBytes k) :
    intEncode a ≤ intEncode k ↔ a ≤ k := by
  constructor
  · intro h
    by_contra hn
    have hlt := intEncode_lt_of_lt_same (not_le.mp hn) hlen.symm
    exact absurd hlt (not_lt.mpr h)
  · intro h
    rcases eq_or_lt_of_le h with heq | hlt
    · rw [heq]
    · exact le_of_lt (intEncode_lt_of_lt_same hlt hlen)

/-! ## Claim theorems -/

/-- C1 counterexample: the claim's "encoded bytes of `a` precede those of `b`
lexicographically only when `a` and `b` encode to the same byte length" is
false: `1 < 256`, their encodings have different lengths, yet
`intEncode 1` precedes `intEncode 256` lexicographically (it is a strict
byte-string prefix of it). -/
theorem c1_only_when_counterexample :
    ¬ (∀ a b : Nat, a < b → intEncode a < intEncode b →
        (intEncode a).length = (intEncode b).length) := by
  intro h
  exact absurd (h 1 256 (by norm_num) (by decide)) (by decide)

/-- C1 (amended): for BigInt keys, (i) order is preserved between encodings
of the same byte length; (ii) across different lengths numeric and
lexicographic order can disagree (256 > 2 but its encoding sorts below); so
(iii) a seek over a store whose keys and probe all share one encoded byte
length returns exactly the stored keys ≥ probe in order, while (iv) over
mixed-length keys the result can miss the exact answer (store {1, 256},
probe 2 returns nothing although 256 ≥ 2 is stored); and (v) the integer
range 0..999998 exercised by TestIterInt.test_seek_forward_key spans more
than one encoded byte length, so the test's exact-equality assertion is not
covered by the same-length guarantee. -/
theorem c1_bigint_length_order :
    (∀ a b : Nat, a < b → (intEncode a).length = (intEncode b).length →
      intEncode a < intEncode b) ∧
    (2 < 256 ∧ intEncode 256 < intEncode 2) ∧
    (∀ (S : List Nat) (k : Nat), S.Pairwise (· < ·) →
      (∀ a ∈ S, numBytes a = numBytes k) →
      seekFwd (S.map intEncode) (intEncode k)
        = (S.filter fun a => decide (k ≤ a)).map intEncode) ∧
    (seekFwd ([1, 256].map intEncode) (intEncode 2) = [] ∧
      ([1, 256].filter fun a : Nat => decide (2 ≤ a)) = [256]) ∧
    (intEncode 0).length ≠ (intEncode 999998).length := by
  refine ⟨?_, ⟨by norm_num, by decide⟩, ?_, ⟨by decide, by decide⟩, by decide⟩
  · intro a b hab hlen
    have h1 := intEncode_length a
    have h2 := intEncode_length b
    exact intEncode_lt_of_lt_same hab (by omega)
  · intro S k hs hlen
    exact (seek_exact_generic intEncode S k hs
      (fun a ha => intEncode_lt_iff_same (hlen a ha))
      (fun a ha => intEncode_le_iff_same (hlen a ha))).1

/-- C1 witness: the same-length ordering guarantee at 2 < 3 (both one-byte
encodings). -/
theorem c1_bigint_length_order_witness :
    (2 : Nat) < 3 ∧ (intEncode 2).length = (intEncode 3).length ∧
    intEncode 2 < intEncode 3 :=
  ⟨by norm_num, by decide, c1_bigint_length_order.1 2 3 (by norm_num) (by decide)⟩

/-- Concrete store for the C2 counterexample: three entries. -/
def c2Store : List (Bytes × Bytes) := [([1], [10]), ([2], [20]), ([3], [30])]

/-- A forward items iterator over `c2Store` constructed with
`from_key = [2]`. -/
def c2StateStart : ItersState := rdictItemsInit ⟨c2Store, none⟩ false (some [2])

/-- The same iterator after one `__next__` (which yielded key `[2]` and
advanced the cursor to key `[3]`). -/
def c2StateAfter : ItersState :=
  match itersNext c2StateStart with
  | some (_, s) => s
  | none => c2StateStart

/-- C2 counterexample: after one step the cursor stands on key `[3]`, but
`__reversed__` does not re-seek from that current key with the opposite
primitive — it re-seeks from the original `from_key` `[2]`, so the reversed
iterator resumes at `[2]`, not at the current position `[3]`. -/
theorem c2_reverse_counterexample :
    cursorValid c2StateAfter.inner = true ∧
    cursorKey c2StateAfter.inner = [3] ∧
    rdictItemsReversed c2StateAfter
      ≠ { inner := cursorSeekForPrev c2StateAfter.inner (cursorKey c2StateAfter.inner),
          backward := true, fromKey := c2StateAfter.fromKey } ∧
    cursorKey (rdictItemsReversed c2StateAfter).inner = [2] := by
  decide

/-- C2 (amended): `__reversed__` flips the direction and rebuilds the wrapper
through the constructor dispatch with the stored original `from_key` (using
the opposite seek primitive when that key is truthy).  Since every seek
primitive ignores the cursor's current position, the reversed iterator
behaves exactly like a freshly constructed one with the flipped direction
and the original `from_key`: it restarts from the construction bound, not
from the cursor's current position. -/
theorem c2_reversed_restarts (entries : List (Bytes × Bytes)) (pos : Option Nat)
    (backward : Bool) (fromKey : Option Bytes) :
    (rdictItemsReversed ⟨⟨entries, pos⟩, backward, fromKey⟩).backward = !backward ∧
    ∀ fuel, itersTake fuel (rdictItemsReversed ⟨⟨entries, pos⟩, backward, fromKey⟩)
      = itersTake fuel (rdictItemsInit ⟨entries, none⟩ (!backward) fromKey) := by
  have hre : rdictItemsReversed ⟨⟨entries, pos⟩, backward, fromKey⟩
      = rdictItemsInit ⟨entries, none⟩ (!backward) fromKey := by
    unfold rdictItemsReversed
    exact rdictItemsInit_pos_irrelevant entries pos none (!backward) fromKey
  constructor
  · rw [hre, rdictItemsInit_backward]
  · intro fuel
    rw [hre]

/-- C3: snapshot isolation — a value visible when `snapshot()` is taken stays
readable through the snapshot after any sequence of subsequent deletes and
overwrites on the live store, and snapshot iteration still yields exactly
the entries captured at snapshot time. -/
theorem c3_snapshot_isolation (st : SnapState) (ops : List MutOp) (k v : Bytes)
    (hvis : lookupA st.live k = some v) :
    snapRead (applyMuts (takeSnapshot st) ops) 0 k = some v ∧
    snapItems (applyMuts (takeSnapshot st) ops) 0 = st.live := by
  have hsnaps : (applyMuts (takeSnapshot st) ops).snaps = st.live :: st.snaps := by
    rw [applyMuts_snaps]
    rfl
  constructor
  · simp [snapRead, hsnaps, hvis]
  · simp [snapItems, hsnaps]

/-- C3 witness: a two-entry store; the snapshot still reads the deleted key
and still lists both original entries after a delete and an overwrite. -/
theorem c3_snapshot_isolation_witness :
    lookupA [([0], [5]), ([1], [6])] [0] = some [5] ∧
    snapRead (applyMuts (takeSnapshot ⟨[([0], [5]), ([1], [6])], []⟩)
      [MutOp.del [0], MutOp.put [1] [9]]) 0 [0] = some [5] ∧
    snapItems (applyMuts (takeSnapshot ⟨[([0], [5]), ([1], [6])], []⟩)
      [MutOp.del [0], MutOp.put [1] [9]]) 0 = [([0], [5]), ([1], [6])] :=
  ⟨by decide,
   (c3_snapshot_isolation ⟨[([0], [5]), ([1], [6])], []⟩
     [MutOp.del [0], MutOp.put [1] [9]] [0] [5] (by decide)).1,
   (c3_snapshot_isolation ⟨[([0], [5]), ([1], [6])], []⟩
     [MutOp.del [0], MutOp.put [1] [9]] [0] [5] (by decide)).2⟩

/-- C4: write batches apply in insertion order — the last Put (or Delete) of
a key in the batch determines what a read of that key returns after
`write`, and keys not targeted by any entry are untouched. -/
theorem c4_batch_insertion_order :
    (∀ (m : Assoc) (b1 b2 : List BatchEntry) (K v : Bytes),
      (∀ e ∈ b2, ¬ entryTargets K e) →
      lookupA (writeBatch m (b1 ++ BatchEntry.put K v :: b2)) K = some v) ∧
    (∀ (m : Assoc) (b1 b2 : List BatchEntry) (K : Bytes),
      (∀ e ∈ b2, ¬ entryTargets K e) →
      lookupA (writeBatch m (b1 ++ BatchEntry.del K :: b2)) K = none) ∧
    (∀ (m : Assoc) (b : List BatchEntry) (K : Bytes),
      (∀ e ∈ b, ¬ entryTargets K e) →
      lookupA (writeBatch m b) K = lookupA m K) := by
  refine ⟨?_, ?_, fun m b K h => writeBatch_frame b m h⟩
  · intro m b1 b2 K v h
    have hsplit : writeBatch m (b1 ++ BatchEntry.put K v :: b2)
        = writeBatch (applyEntry (writeBatch m b1) (BatchEntry.put K v)) b2 := by
      rw [writeBatch_append]
      rfl
    rw [hsplit, writeBatch_frame b2 _ h]
    exact lookupA_putA_self (writeBatch m b1) K v
  · intro m b1 b2 K h
    have hsplit : writeBatch m (b1 ++ BatchEntry.del K :: b2)
        = writeBatch (applyEntry (writeBatch m b1) (BatchEntry.del K)) b2 := by
      rw [writeBatch_append]
      rfl
    rw [hsplit, writeBatch_frame b2 _ h]
    exact lookupA_delA_self (writeBatch m b1) K

/-- C4 witness: the spec's scenario — a batch with `put(K, v1)` then
`put(K, v2)`; after `write`, a get of `K` returns `v2`. -/
theorem c4_batch_insertion_order_witness :
    (∀ e ∈ ([] : List BatchEntry), ¬ entryTargets [66] e) ∧
    lookupA (writeBatch []
      ([BatchEntry.put [66] [1]] ++ BatchEntry.put [66] [2] :: [])) [66]
      = some [2] :=
  ⟨by simp, c4_batch_insertion_order.1 [] [BatchEntry.put [66] [1]] [] [66] [2]
    (by simp)⟩

/-- C5: for the key types with guaranteed encoding order (Bytes, Utf8String,
Bool, Float64), forward iteration from `k` yields exactly the encodings of
the stored keys ≥ k in ascending order and backward iteration from `k`
yields exactly the stored keys ≤ k in descending order. -/
theorem c5_ordered_types_seek_exact :
    (∀ (S : List Bytes) (k : Bytes), S.Pairwise (· < ·) →
      seekFwd (S.map bytesEncode) (bytesEncode k)
        = (S.filter fun a => decide (k ≤ a)).map bytesEncode ∧
      seekBwd (S.map bytesEncode) (bytesEncode k)
        = ((S.filter fun a => decide (a ≤ k)).map bytesEncode).reverse) ∧
    (∀ (S : List Bytes) (k : Bytes), S.Pairwise (· < ·) →
      seekFwd (S.map strEncode) (strEncode k)
        = (S.filter fun a => decide (k ≤ a)).map strEncode ∧
      seekBwd (S.map strEncode) (strEncode k)
        = ((S.filter fun a => decide (a ≤ k)).map strEncode).reverse) ∧
    (∀ (S : List Bool) (k : Bool), S.Pairwise (· < ·) →
      seekFwd (S.map boolEncode) (boolEncode k)
        = (S.filter fun a => decide (k ≤ a)).map boolEncode ∧
      seekBwd (S.map boolEncode) (boolEncode k)
        = ((S.filter fun a => decide (a ≤ k)).map boolEncode).reverse) ∧
    (∀ (S : List FloatKey) (k : FloatKey), S.Pairwise (· < ·) →
      seekFwd (S.map floatEncode) (floatEncode k)
        = (S.filter fun a => decide (k ≤ a)).map floatEncode ∧
      seekBwd (S.map floatEncode) (floatEncode k)
        = ((S.filter fun a => decide (a ≤ k)).map floatEncode).reverse) :=
  ⟨fun S k hs => seek_exact_of_strictMono bytesEncode_strictMono S k hs,
   fun S k hs => seek_exact_of_strictMono strEncode_strictMono S k hs,
   fun S k hs => seek_exact_of_strictMono boolEncode_strictMono S k hs,
   fun S k hs => seek_exact_of_strictMono floatEncode_strictMono S k hs⟩

/-- C5 witness: concrete sorted stores for each of the four types. -/
theorem c5_ordered_types_seek_exact_witness :
    (([[2], [5]] : List Bytes).Pairwise (· < ·) ∧
      seekFwd ([[2], [5]].map bytesEncode) (bytesEncode [3])
        = (([[2], [5]] : List Bytes).filter fun a => decide ([3] ≤ a)).map bytesEncode) ∧
    (([[7]] : List Bytes).Pairwise (· < ·) ∧
      seekBwd ([[7]].map strEncode) (strEncode [9])
        = ((([[7]] : List Bytes).filter fun a => decide (a ≤ [9])).map strEncode).reverse) ∧
    (([false, true] : List Bool).Pairwise (· < ·) ∧
      seekFwd ([false, true].map boolEncode) (boolEncode true)
        = (([false, true] : List Bool).filter fun a => decide (true ≤ a)).map boolEncode) ∧
    (([⟨1, by decide⟩, ⟨2, by decide⟩] : List FloatKey).Pairwise (· < ·) ∧
      seekFwd (([⟨1, by decide⟩, ⟨2, by decide⟩] : List FloatKey).map floatEncode)
          (floatEncode ⟨2, by decide⟩)
        = (([⟨1, by decide⟩, ⟨2, by decide⟩] : List FloatKey).filter
            fun a => decide ((⟨2, by decide⟩ : FloatKey) ≤ a)).map floatEncode) :=
  ⟨⟨by decide, (c5_ordered_types_seek_exact.1 [[2], [5]] [3] (by decide)).1⟩,
   ⟨by decide, (c5_ordered_types_seek_exact.2.1 [[7]] [9] (by decide)).2⟩,
   ⟨by decide, (c5_ordered_types_seek_exact.2.2.1 [false, true] true (by decide)).1⟩,
   ⟨by decide, (c5_ordered_types_seek_exact.2.2.2 [⟨1, by decide⟩, ⟨2, by decide⟩]
     ⟨2, by decide⟩ (by decide)).1⟩⟩

/-- C6: per-type round-trip of the codec — decoding an encoding recovers the
original typed key or value exactly (including arbitrary-precision integer
magnitudes, covered by the unbounded `Nat` payload) — and encodings of
different key types never collide because the leading tag byte partitions
the byte space. -/
theorem c6_codec_roundtrip_and_tags :
    (∀ k : TypedKey, validKey k → decodeKey (encodeKey k) = some k) ∧
    (∀ v : TypedValue, validValue v → decodeValue (encodeValue v) = some v) ∧
    (∀ k1 k2 : TypedKey, keyTag k1 ≠ keyTag k2 → encodeKey k1 ≠ encodeKey k2) :=
  ⟨fun _ h => decodeKey_encodeKey h, fun _ h => decodeValue_encodeValue h,
   fun _ _ h => encodeKey_tag_disjoint h⟩

/-- C6 witness: round trip of an integer key far beyond 64 bits, of a float
value, and tag disjointness of an int key and a string key. -/
theorem c6_codec_roundtrip_and_tags_witness :
    validKey (TypedKey.intK (2 ^ 100 + 7)) ∧
    decodeKey (encodeKey (TypedKey.intK (2 ^ 100 + 7)))
      = some (TypedKey.intK (2 ^ 100 + 7)) ∧
    validValue (TypedValue.floatV 3) ∧
    decodeValue (encodeValue (TypedValue.floatV 3)) = some (TypedValue.floatV 3) ∧
    keyTag (TypedKey.intK 1) ≠ keyTag (TypedKey.strK [49]) ∧
    encodeKey (TypedKey.intK 1) ≠ encodeKey (TypedKey.strK [49]) :=
  ⟨trivial, c6_codec_roundtrip_and_tags.1 (TypedKey.intK (2 ^ 100 + 7)) trivial,
   by norm_num [validValue], c6_codec_roundtrip_and_tags.2.1 (TypedValue.floatV 3)
     (by norm_num [validValue]),
   by decide, c6_codec_roundtrip_and_tags.2.2 (TypedKey.intK 1) (TypedKey.strK [49])
     (by decide)⟩

/-- C7: a plain get on a wide-column key returns only the default
(empty-named) column's value — the empty scalar when the entity has no
default column — while `get_entity` returns the full column set sorted by
name with the empty name first; `encode_wide` serializes exactly that sorted
column set. -/
theorem c7_wide_column_default_get :
    (∀ (cols : List WideCol) (v : Bytes), (cols.map Prod.fst).Nodup →
      (([] : Bytes), v) ∈ cols →
      plainGetOfCols cols = v ∧
      ∃ rest, getEntityCols cols = (([] : Bytes), v) :: rest) ∧
    (∀ cols : List WideCol, (∀ c ∈ cols, c.1 ≠ []) → plainGetOfCols cols = []) ∧
    (∀ cols : List WideCol,
      (getEntityCols cols).Sorted colNameLe ∧ (getEntityCols cols).Perm cols ∧
      encodeWide cols
        = ((getEntityCols cols).map fun c =>
            c.1.length :: c.1 ++ (c.2.length :: c.2)).flatten) := by
  refine ⟨?_, fun cols h => plainGet_no_default h,
    fun cols => ⟨sortCols_sorted cols, sortCols_perm cols, rfl⟩⟩
  intro cols v hnodup hmem
  exact ⟨plainGet_default hnodup hmem, sortCols_default_first hnodup hmem⟩

/-- C7 witness: an entity without a default column answers a plain get with
the empty scalar; an entity with a default column answers with its value and
lists it first in the sorted entity. -/
theorem c7_wide_column_default_get_witness :
    (∀ c ∈ ([([1], [2]), ([3], [4])] : List WideCol), c.1 ≠ []) ∧
    plainGetOfCols [([1], [2]), ([3], [4])] = [] ∧
    (([([1], [9]), ([], [7])] : List WideCol).map Prod.fst).Nodup ∧
    (([] : Bytes), [7]) ∈ ([([1], [9]), ([], [7])] : List WideCol) ∧
    plainGetOfCols [([1], [9]), ([], [7])] = [7] ∧
    (∃ rest, getEntityCols [([1], [9]), ([], [7])] = (([] : Bytes), [7]) :: rest) :=
  ⟨by decide, c7_wide_column_default_get.2.1 [([1], [2]), ([3], [4])] (by decide),
   by decide, by decide,
   (c7_wide_column_default_get.1 [([1], [9]), ([], [7])] [7] (by decide) (by decide)).1,
   (c7_wide_column_default_get.1 [([1], [9]), ([], [7])] [7] (by decide) (by decide)).2⟩

/-- C8: after `close()`, every operation issued through the store handle, for
any column-family handle derived from it, fails with the closed-database
error — and that error arises only from closed handles: no operation on an
open store reports it. -/
theorem c8_closed_handle_errors :
    (∀ (conn : DbConn) (op : DbOp), runOp (closeDb conn) op = .error .dbClosed) ∧
    (∀ (db : CfStores) (op : DbOp), runOp (some db) op ≠ .error .dbClosed) := by
  constructor
  · intro conn op
    rfl
  · intro db op hc
    cases op <;> simp [runOp] at hc

/-- C9: on an absent key the strict accessor raises the key-not-found
condition while the defaulting accessor returns `none` or the supplied
default; on a present key both return the stored value. -/
theorem c9_strict_and_defaulting_get :
    (∀ (m : Assoc) (k : Bytes), lookupA m k = none →
      getItemStrict m k = .error .keyError ∧
      getWithDefault m k none = none ∧
      ∀ d : Bytes, getWithDefault m k (some d) = some d) ∧
    (∀ (m : Assoc) (k v : Bytes), lookupA m k = some v →
      getItemStrict m k = .ok v ∧
      ∀ dflt : Option Bytes, getWithDefault m k dflt = some v) := by
  constructor
  · intro m k h
    refine ⟨?_, ?_, fun d => ?_⟩ <;> simp [getItemStrict, getWithDefault, h]
  · intro m k v h
    refine ⟨?_, fun dflt => ?_⟩ <;> simp [getItemStrict, getWithDefault, h]

/-- C9 witness: a one-entry store probed at an absent and at a present key. -/
theorem c9_strict_and_defaulting_get_witness :
    lookupA [([0], [5])] [1] = none ∧
    getItemStrict [([0], [5])] [1] = .error .keyError ∧
    getWithDefault [([0], [5])] [1] (some [9]) = some [9] ∧
    lookupA [([0], [5])] [0] = some [5] ∧
    getItemStrict [([0], [5])] [0] = .ok [5] :=
  ⟨by decide, (c9_strict_and_defaulting_get.1 [([0], [5])] [1] (by decide)).1,
   (c9_strict_and_defaulting_get.1 [([0], [5])] [1] (by decide)).2.2 [9],
   by decide, (c9_strict_and_defaulting_get.2 [([0], [5])] [0] [5] (by decide)).1⟩

/-- C10: in all three wrapper constructors a falsy `from_key` — `0`, `0.0`
(either signed-zero pattern), `False`, the empty string, the empty bytes —
is dispatched exactly like an absent `from_key`: the cursor is sent to the
first key (last when backward) instead of being sought to the given key,
because the constructors test truthiness rather than presence. -/
theorem c10_falsy_from_key_ignored :
    (∀ (backward : Bool) (k : PyKey), pyTruthy k = false →
      rdictItemsInitAction backward (some k) = rdictItemsInitAction backward none ∧
      rdictKeysInitAction backward (some k) = rdictKeysInitAction backward none ∧
      rdictValuesInitAction backward (some k) = rdictValuesInitAction backward none) ∧
    (∀ backward : Bool,
      rdictItemsInitAction backward none
        = if backward then SeekAction.toLast else SeekAction.toFirst) ∧
    (pyTruthy (PyKey.pyInt 0) = false ∧ pyTruthy (PyKey.pyFloat 0) = false ∧
      pyTruthy (PyKey.pyBool false) = false ∧ pyTruthy (PyKey.pyStr []) = false ∧
      pyTruthy (PyKey.pyBytes []) = false) := by
  refine ⟨?_, fun backward => rfl, by decide⟩
  intro backward k h
  refine ⟨?_, ?_, ?_⟩ <;>
    simp [rdictItemsInitAction, rdictKeysInitAction, rdictValuesInitAction, h]

/-- C10 witness: the integer 0 as `from_key` of a backward items iterator is
dispatched like an absent `from_key`. -/
theorem c10_falsy_from_key_ignored_witness :
    pyTruthy (PyKey.pyInt 0) = false ∧
    rdictItemsInitAction true (some (PyKey.pyInt 0)) = rdictItemsInitAction true none :=
  ⟨by decide, (c10_falsy_from_key_ignored.1 true (PyKey.pyInt 0) (by decide)).1⟩

end RocksDict
